import Mathlib

/-!
Verification of the queue/appointment ordering engine of the CoffeAIAgent
repository (`app/models/queue.py` and `app/services/queue_service.py`).

Times are modelled as natural numbers of minutes since an epoch midnight, so
`hourOf t = t % 1440 / 60` is the datetime's hour.  Queue entries keep the
fields the engine reads; `created_at` is the arrival stamp.  Python dicts are
modelled as association lists whose insertion respects dict semantics.
-/

namespace CoffeQueue

/-- The five queue types of `QueueType` in `app/models/queue.py`. -/
inductive QueueType where
  | walk_in
  | appointment
  | delivery
  | takeaway
  | dine_in
deriving DecidableEq

/-- Enum iteration order of `QueueType`, as Python iterates it in
`QueueManager.__init__` and over `current_queues.items()`. -/
def queueTypes : List QueueType :=
  [.walk_in, .appointment, .delivery, .takeaway, .dine_in]

/-- The entry statuses of `QueueStatus`. -/
inductive QueueStatus where
  | waiting
  | called
  | preparing
  | ready
  | completed
  | cancelled
  | no_show
deriving DecidableEq

/-- A queue entry (`QueueEntry` in `app/models/queue.py`), restricted to the
fields the queue engine reads or writes. -/
structure QueueEntry where
  queue_id : String
  queue_type : QueueType := .walk_in
  status : QueueStatus := .waiting
  priority : Nat := 0
  created_at : Nat := 0
  called_at : Option Nat := none
  completed_at : Option Nat := none
  original_position : Nat := 0
  current_position : Nat := 0
  table_number : Option Nat := none
deriving DecidableEq

/-- An appointment (`Appointment` in `app/models/queue.py`), restricted to the
fields the scheduling engine reads or writes.  `status` is the Python string
field with values among pending, confirmed, cancelled, completed. -/
structure Appointment where
  appointment_type : String := "coffee_meeting"
  scheduled_time : Nat
  duration_minutes : Nat := 60
  status : String := "pending"
  reminder_sent_24h : Bool := false
  reminder_sent_1h : Bool := false
deriving DecidableEq

/-- The `QueueManager` state: queues per type, appointments, table pool. -/
structure QueueManager where
  current_queues : QueueType → List QueueEntry
  appointments : List Appointment := []
  available_tables : List Nat
  occupied_tables : List (Nat × String) := []

/-- A fresh `QueueManager()` whose table pool is `list(range(1, n+1))`
(`n = 20` in the source) and whose queues are all empty. -/
def initialManager (n : Nat) : QueueManager :=
  { current_queues := fun _ => []
    appointments := []
    available_tables := List.range' 1 n
    occupied_tables := [] }

/-- The scan in `add_to_queue`: `position = len(queue)`, then the first index
`i` with `entry.priority > queue[i].priority` if one exists. -/
def insertPos : List QueueEntry → Nat → Nat
  | [], _ => 0
  | e :: rest, p => if p > e.priority then 0 else insertPos rest p + 1

/-- Python `list.insert(i, x)` (clamping at the end when `i ≥ len`). -/
def insertAt {α : Type} : Nat → α → List α → List α
  | 0, x, l => x :: l
  | _ + 1, x, [] => [x]
  | n + 1, x, e :: l => e :: insertAt n x l

/-- `_update_positions` body: `entry.current_position = i + 1` for each index,
generalized over the starting index for the recursion. -/
def updatePositionsFrom : Nat → List QueueEntry → List QueueEntry
  | _, [] => []
  | n, e :: rest => { e with current_position := n + 1 } :: updatePositionsFrom (n + 1) rest

/-- `QueueManager._update_positions` on a single queue. -/
def updatePositions (q : List QueueEntry) : List QueueEntry :=
  updatePositionsFrom 0 q

/-- `QueueManager.add_to_queue` restricted to the target queue's list: computes
the insertion position, stamps `original_position`/`current_position`, inserts,
recomputes positions, and returns the new list with the 1-based position. -/
def addEntryToList (q : List QueueEntry) (entry : QueueEntry) :
    List QueueEntry × Nat :=
  let position := insertPos q entry.priority
  let entry2 := { entry with
    original_position := position + 1
    current_position := position + 1 }
  (updatePositions (insertAt position entry2 q), position + 1)

/-- Folding `add_to_queue` over a sequence of joining entries. -/
def foldJoins (q : List QueueEntry) (es : List QueueEntry) : List QueueEntry :=
  es.foldl (fun acc e => (addEntryToList acc e).1) q

/-- The ordering data of an entry: its priority and its arrival stamp. -/
def entryKey (e : QueueEntry) : Nat × Nat := (e.priority, e.created_at)

/-- `a` may sit ahead of `b`: higher-or-equal priority, and strictly earlier
arrival on equal priority (higher priority first, stable FIFO within ties). -/
def keyOrd (a b : Nat × Nat) : Prop :=
  b.1 ≤ a.1 ∧ (a.1 = b.1 → a.2 < b.2)

/-- A queue is ordered: higher priority first, arrival order within equal
priority. -/
def QueueOrdered (q : List QueueEntry) : Prop :=
  List.Pairwise keyOrd (q.map entryKey)

lemma mem_insertAt {α : Type} (x y : α) :
    ∀ (n : Nat) (l : List α), y ∈ insertAt n x l ↔ y = x ∨ y ∈ l := by
  intro n
  induction n with
  | zero =>
    intro l
    simp [insertAt]
  | succ n ih =>
    intro l
    cases l with
    | nil => simp [insertAt]
    | cons e rest =>
      simp [insertAt, ih rest]
      tauto

lemma map_insertAt {α β : Type} (f : α → β) (x : α) :
    ∀ (n : Nat) (l : List α),
      (insertAt n x l).map f = insertAt n (f x) (l.map f) := by
  intro n
  induction n with
  | zero => intro l; simp [insertAt]
  | succ n ih =>
    intro l
    cases l with
    | nil => simp [insertAt]
    | cons e rest => simp [insertAt, ih rest]

lemma map_key_updatePositionsFrom :
    ∀ (n : Nat) (q : List QueueEntry),
      (updatePositionsFrom n q).map entryKey = q.map entryKey := by
  intro n q
  induction q generalizing n with
  | nil => simp [updatePositionsFrom]
  | cons e rest ih => simp [updatePositionsFrom, entryKey, ih]

/-- `insertPos` depends only on the priorities, through `entryKey`. -/
def keyInsertPos : List (Nat × Nat) → Nat → Nat
  | [], _ => 0
  | k :: rest, p => if p > k.1 then 0 else keyInsertPos rest p + 1

lemma insertPos_eq_keyInsertPos (q : List QueueEntry) (p : Nat) :
    insertPos q p = keyInsertPos (q.map entryKey) p := by
  induction q with
  | nil => rfl
  | cons e rest ih => simp [insertPos, keyInsertPos, entryKey, ih]

/-- Inserting a fresh arrival at the scanned position keeps the key list
ordered. -/
lemma keyInsert_ordered (p c : Nat) :
    ∀ (l : List (Nat × Nat)), List.Pairwise keyOrd l →
      (∀ k ∈ l, k.2 < c) →
      List.Pairwise keyOrd (insertAt (keyInsertPos l p) (p, c) l) := by
  intro l
  induction l with
  | nil =>
    intro _ _
    simp [keyInsertPos, insertAt, List.Pairwise]
  | cons k rest ih =>
    intro hord hfresh
    rcases List.pairwise_cons.mp hord with ⟨hk, hrest⟩
    by_cases hp : p > k.1
    · simp only [keyInsertPos, if_pos hp, insertAt]
      refine List.pairwise_cons.mpr ⟨?_, hord⟩
      intro b hb
      rcases List.mem_cons.mp hb with hbk | hbr
      · subst hbk
        exact ⟨Nat.le_of_lt hp, fun he => absurd he.symm (Nat.ne_of_lt hp)⟩
      · have hkb := hk b hbr
        refine ⟨Nat.le_trans hkb.1 (Nat.le_of_lt hp), fun he => ?_⟩
        have h1 : b.1 ≤ k.1 := hkb.1
        have h2 : p = b.1 := he
        omega
    · simp only [keyInsertPos, if_neg hp, insertAt]
      refine List.pairwise_cons.mpr ⟨?_, ?_⟩
      · intro b hb
        rcases (mem_insertAt _ _ _ _).mp hb with hbx | hbr
        · subst hbx
          exact ⟨Nat.le_of_not_lt hp, fun _ => hfresh k (List.mem_cons_self _ _)⟩
        · exact hk b hbr
      · exact ih hrest (fun k2 hk2 => hfresh k2 (List.mem_cons_of_mem _ hk2))

/-- One `add_to_queue` step preserves the queue ordering, provided the new
entry arrives later than everything already queued. -/
lemma addEntry_ordered (q : List QueueEntry) (entry : QueueEntry)
    (hord : QueueOrdered q)
    (hfresh : ∀ e ∈ q, e.created_at < entry.created_at) :
    QueueOrdered (addEntryToList q entry).1 := by
  have hmain := keyInsert_ordered entry.priority entry.created_at (q.map entryKey) hord
    (by
      intro k hkmem
      rcases List.mem_map.mp hkmem with ⟨e, hem, hke⟩
      subst hke
      exact hfresh e hem)
  unfold QueueOrdered addEntryToList
  simp only [updatePositions, map_key_updatePositionsFrom, map_insertAt,
    insertPos_eq_keyInsertPos]
  exact hmain

/-- Replace one queue of the manager, leaving the others untouched. -/
def updateQueue (m : QueueManager) (qt : QueueType) (q : List QueueEntry) :
    QueueManager :=
  { m with current_queues := fun qt2 => if qt2 = qt then q else m.current_queues qt2 }

/-- `QueueManager.add_to_queue`: insert into the queue named by the entry's
`queue_type` and return the 1-based position. -/
def QueueManager.add_to_queue (m : QueueManager) (entry : QueueEntry) :
    QueueManager × Nat :=
  let r := addEntryToList (m.current_queues entry.queue_type) entry
  (updateQueue m entry.queue_type r.1, r.2)

/-- Inner loop of `remove_from_queue`: pop the first entry of the list whose
`queue_id` matches, returning it with the remaining list. -/
def findRemove : List QueueEntry → String → Option (QueueEntry × List QueueEntry)
  | [], _ => none
  | e :: rest, qid =>
    if e.queue_id = qid then some (e, rest)
    else
      match findRemove rest qid with
      | some (r, q2) => some (r, e :: q2)
      | none => none

/-- Outer loop of `remove_from_queue` over `current_queues.items()` in dict
insertion order; positions are recomputed only for the queue that matched. -/
def removeAux (m : QueueManager) (qid : String) :
    List QueueType → QueueManager × Option QueueEntry
  | [] => (m, none)
  | qt :: rest =>
    match findRemove (m.current_queues qt) qid with
    | some (e, q2) => (updateQueue m qt (updatePositions q2), some e)
    | none => removeAux m qid rest

/-- `QueueManager.remove_from_queue`. -/
def QueueManager.remove_from_queue (m : QueueManager) (qid : String) :
    QueueManager × Option QueueEntry :=
  removeAux m qid queueTypes

/-- `QueueManager.call_next_customer` at time `now`: stamp the front entry
called, without removing it. -/
def QueueManager.call_next_customer (m : QueueManager) (qt : QueueType)
    (now : Nat) : QueueManager × Option QueueEntry :=
  match m.current_queues qt with
  | [] => (m, none)
  | e :: rest =>
    let e2 := { e with status := QueueStatus.called, called_at := some now }
    (updateQueue m qt (e2 :: rest), some e2)

/-- `QueueManager.complete_service` at time `now`: remove the entry, stamp it
completed, and release `table_number` when it is truthy and occupied.  (Python:
`if table_number and table_number in self.occupied_tables`.) -/
def QueueManager.complete_service (m : QueueManager) (qid : String)
    (table_number : Option Nat) (now : Nat) : QueueManager × Option QueueEntry :=
  let r := m.remove_from_queue qid
  match r.2 with
  | none => (r.1, none)
  | some e =>
    let e2 := { e with status := QueueStatus.completed, completed_at := some now }
    match table_number with
    | none => (r.1, some e2)
    | some t =>
      if t ≠ 0 ∧ t ∈ (r.1.occupied_tables.map Prod.fst) then
        ({ r.1 with
            available_tables := r.1.available_tables ++ [t]
            occupied_tables := r.1.occupied_tables.filter (fun p => p.1 ≠ t) },
          some e2)
      else (r.1, some e2)

/-- Python dict assignment `d[k] = v`: overwrite in place when the key exists,
append otherwise. -/
def dictInsert (d : List (Nat × String)) (k : Nat) (v : String) :
    List (Nat × String) :=
  if k ∈ d.map Prod.fst then
    d.map (fun p => if p.1 = k then (k, v) else p)
  else d ++ [(k, v)]

/-- Inner loop of `assign_table` on one queue: set `table_number` on the first
matching entry, then break. -/
def setTableFirst : List QueueEntry → String → Nat → List QueueEntry
  | [], _, _ => []
  | e :: rest, qid, t =>
    if e.queue_id = qid then { e with table_number := some t } :: rest
    else e :: setTableFirst rest qid t

/-- `QueueManager.assign_table`: pop the first available table, mark it
occupied against `queue_id`, and record it on the matching entry of each
queue.  With no available table, return none and change nothing. -/
def QueueManager.assign_table (m : QueueManager) (qid : String) :
    QueueManager × Option Nat :=
  match m.available_tables with
  | [] => (m, none)
  | t :: rest =>
    ({ m with
        available_tables := rest
        occupied_tables := dictInsert m.occupied_tables t qid
        current_queues := fun qt => setTableFirst (m.current_queues qt) qid t },
      some t)

/-- The hour of a minute-stamp, as `datetime.hour`. -/
def hourOf (t : Nat) : Nat := t % 1440 / 60

/-- The overlap scan of `_is_time_slot_available`: every non-cancelled
appointment must fail the half-open overlap test against
`[startT, endT)`. -/
def slotOverlapFree (appts : List Appointment) (startT endT : Nat) : Bool :=
  appts.all fun apt =>
    apt.status == "cancelled" ||
      !(decide (startT < apt.scheduled_time + apt.duration_minutes) &&
        decide (endT > apt.scheduled_time))

/-- `VirtualQueueService._is_time_slot_available`. -/
def is_time_slot_available (appts : List Appointment) (startT dur : Nat) : Bool :=
  slotOverlapFree appts startT (startT + dur) &&
    !(decide (hourOf startT < 8) || decide (hourOf startT ≥ 20))

/-- `VirtualQueueService.schedule_appointment`: on an available slot, append a
confirmed appointment and return it; otherwise raise (modelled as `none`, with
the appointment list untouched). -/
def schedule_appointment (appts : List Appointment) (atype : String)
    (stime dur : Nat) : Option Appointment × List Appointment :=
  if is_time_slot_available appts stime dur then
    let apt : Appointment :=
      { appointment_type := atype
        scheduled_time := stime
        duration_minutes := dur
        status := "confirmed" }
    (some apt, appts ++ [apt])
  else (none, appts)

/-- `Appointment.should_send_reminder` at time `now`:
`abs((scheduled_time - now) - hours_before) < 15 minutes`. -/
def should_send_reminder (apt : Appointment) (hours_before now : Nat) : Bool :=
  Nat.dist apt.scheduled_time (now + hours_before * 60) < 15

/-- The 24-hour block of `process_appointment_reminders` for one appointment:
fire and set the flag when it is unset and the window matches. -/
def remind24 (now : Nat) (apt : Appointment) : Appointment :=
  if ¬apt.reminder_sent_24h ∧ should_send_reminder apt 24 now then
    { apt with reminder_sent_24h := true }
  else apt

/-- The 1-hour block, run after the 24-hour block. -/
def remind1 (now : Nat) (apt : Appointment) : Appointment :=
  if ¬apt.reminder_sent_1h ∧ should_send_reminder apt 1 now then
    { apt with reminder_sent_1h := true }
  else apt

/-- One appointment's step of `process_appointment_reminders`:
non-confirmed appointments are skipped, confirmed ones run the two guarded
reminder blocks in order. -/
def remindStep (now : Nat) (apt : Appointment) : Appointment :=
  if apt.status ≠ "confirmed" then apt else remind1 now (remind24 now apt)

/-- `VirtualQueueService.process_appointment_reminders` at time `now`. -/
def process_appointment_reminders (appts : List Appointment) (now : Nat) :
    List Appointment :=
  appts.map (remindStep now)

/-- `VirtualQueueService.get_available_slots` for the day whose midnight is
`day * 1440`: the while loop starts at 8:00, steps by 15 minutes, and runs
while `current + duration ≤ 20:00`; since that guard is antitone in the step
counter, the loop visits exactly the guard-satisfying candidates, all of which
lie among the first 49 steps. -/
def get_available_slots (appts : List Appointment) (day dur : Nat) : List Nat :=
  let startT := day * 1440 + 8 * 60
  let endT := day * 1440 + 20 * 60
  ((List.range 49).map (fun k => startT + 15 * k)).filter
    (fun s => decide (s + dur ≤ endT) && is_time_slot_available appts s dur)

/-- `VirtualQueueService.complete_service(queue_id)`: delegates to the manager
without passing a table number. -/
def service_complete_service (m : QueueManager) (qid : String) (now : Nat) :
    QueueManager × Option QueueEntry :=
  m.complete_service qid none now

lemma insertPos_le_length (q : List QueueEntry) (p : Nat) :
    insertPos q p ≤ q.length := by
  induction q with
  | nil => simp [insertPos]
  | cons e rest ih =>
    simp only [insertPos, List.length_cons]
    split
    · omega
    · omega

lemma insertPos_before (q : List QueueEntry) (p : Nat) :
    ∀ i e, q[i]? = some e → i < insertPos q p → p ≤ e.priority := by
  induction q with
  | nil => intro i e h; simp at h
  | cons x rest ih =>
    intro i e h hi
    unfold insertPos at hi
    by_cases hp : p > x.priority
    · rw [if_pos hp] at hi; omega
    · rw [if_neg hp] at hi
      cases i with
      | zero =>
        simp only [List.getElem?_cons_zero, Option.some.injEq] at h
        subst h
        omega
      | succ i =>
        simp only [List.getElem?_cons_succ] at h
        exact ih i e h (by omega)

lemma insertPos_at (q : List QueueEntry) (p : Nat) :
    ∀ e, q[insertPos q p]? = some e → e.priority < p := by
  induction q with
  | nil => intro e h; simp [insertPos] at h
  | cons x rest ih =>
    intro e h
    unfold insertPos at h
    by_cases hp : p > x.priority
    · rw [if_pos hp] at h
      simp only [List.getElem?_cons_zero, Option.some.injEq] at h
      subst h
      omega
    · rw [if_neg hp] at h
      simp only [List.getElem?_cons_succ] at h
      exact ih e h

lemma getElem_updatePositionsFrom :
    ∀ (n : Nat) (q : List QueueEntry) (i : Nat),
      (updatePositionsFrom n q)[i]? =
        (q[i]?).map (fun e => { e with current_position := n + i + 1 }) := by
  intro n q
  induction q generalizing n with
  | nil => intro i; simp [updatePositionsFrom]
  | cons e rest ih =>
    intro i
    cases i with
    | zero => simp [updatePositionsFrom]
    | succ i =>
      have ih2 := ih (n + 1) i
      have hn : n + 1 + i + 1 = n + (i + 1) + 1 := by omega
      rw [hn] at ih2
      simpa [updatePositionsFrom] using ih2

lemma getElem_insertAt_self {α : Type} (x : α) :
    ∀ (n : Nat) (l : List α), n ≤ l.length → (insertAt n x l)[n]? = some x := by
  intro n
  induction n with
  | zero => intro l _; simp [insertAt]
  | succ n ih =>
    intro l hl
    cases l with
    | nil => simp at hl
    | cons e rest =>
      simp only [insertAt, List.getElem?_cons_succ]
      exact ih rest (by simpa using hl)

lemma created_at_mem_addEntry (q : List QueueEntry) (e x : QueueEntry)
    (hx : x ∈ (addEntryToList q e).1) :
    x.created_at = e.created_at ∨ ∃ y ∈ q, x.created_at = y.created_at := by
  have hmem : entryKey x ∈ ((addEntryToList q e).1).map entryKey :=
    List.mem_map_of_mem _ hx
  unfold addEntryToList at hmem
  simp only [updatePositions, map_key_updatePositionsFrom, map_insertAt] at hmem
  rcases (mem_insertAt _ _ _ _).mp hmem with h1 | h2
  · exact Or.inl (congrArg Prod.snd h1)
  · rcases List.mem_map.mp h2 with ⟨y, hy, hxy⟩
    exact Or.inr ⟨y, hy, (congrArg Prod.snd hxy).symm⟩

lemma foldJoins_ordered :
    ∀ (es : List QueueEntry) (q : List QueueEntry),
      List.Pairwise (fun a b => a.created_at < b.created_at) es →
      QueueOrdered q →
      (∀ x ∈ q, ∀ e ∈ es, x.created_at < e.created_at) →
      QueueOrdered (foldJoins q es) := by
  intro es
  induction es with
  | nil => intro q _ hq _; simpa [foldJoins] using hq
  | cons e rest ih =>
    intro q hinc hq hcr
    rcases List.pairwise_cons.mp hinc with ⟨he, hrest⟩
    have hord2 := addEntry_ordered q e hq
      (fun x hx => hcr x hx e (List.mem_cons_self _ _))
    show QueueOrdered (foldJoins (addEntryToList q e).1 rest)
    refine ih _ hrest hord2 ?_
    intro x hx e2 he2
    rcases created_at_mem_addEntry q e x hx with h1 | ⟨y, hy, h2⟩
    · rw [h1]; exact he e2 he2
    · rw [h2]; exact hcr y hy e2 (List.mem_cons_of_mem _ he2)

/-- C1: `add_to_queue` inserts the new entry immediately before the first
existing entry whose priority is strictly lower (every entry before the
insertion point has priority at least the new one's, the entry at the
insertion point, when it exists, has strictly lower priority), appending if no
such entry exists; after any sequence of insertions with increasing arrival
stamps the queue is ordered higher priority first and stable-FIFO within equal
priorities; the returned value is the 1-based insertion position and equals
the inserted entry's `original_position` and `current_position`. -/
theorem add_to_queue_priority_insertion
    (q : List QueueEntry) (entry : QueueEntry)
    (hord : QueueOrdered q)
    (hfresh : ∀ e ∈ q, e.created_at < entry.created_at) :
    QueueOrdered (addEntryToList q entry).1
    ∧ (addEntryToList q entry).2 = insertPos q entry.priority + 1
    ∧ (∀ i e, q[i]? = some e → i < insertPos q entry.priority →
        entry.priority ≤ e.priority)
    ∧ (∀ e, q[insertPos q entry.priority]? = some e →
        e.priority < entry.priority)
    ∧ ((addEntryToList q entry).1)[insertPos q entry.priority]? =
        some { entry with
          original_position := insertPos q entry.priority + 1
          current_position := insertPos q entry.priority + 1 }
    ∧ (∀ es : List QueueEntry,
        List.Pairwise (fun a b => a.created_at < b.created_at) es →
        QueueOrdered (foldJoins [] es)) := by
  refine ⟨addEntry_ordered q entry hord hfresh, rfl,
    insertPos_before q entry.priority, insertPos_at q entry.priority, ?_, ?_⟩
  · unfold addEntryToList
    simp only [updatePositions]
    rw [getElem_updatePositionsFrom 0 _ (insertPos q entry.priority)]
    rw [getElem_insertAt_self _ _ _ (insertPos_le_length q entry.priority)]
    simp
  · intro es hinc
    exact foldJoins_ordered es [] hinc (by simp [QueueOrdered]) (by simp)

/-- Scenario entries of the spec: three walk-in joins with priorities 0, 0, 5
and arrival stamps 0, 1, 2. -/
def scenarioA : QueueEntry := { queue_id := "a", priority := 0, created_at := 0 }

def scenarioB : QueueEntry := { queue_id := "b", priority := 0, created_at := 1 }

def scenarioC : QueueEntry := { queue_id := "c", priority := 5, created_at := 2 }

def scenarioJoins : List QueueEntry := [scenarioA, scenarioB, scenarioC]

/-- Witness for C1 at the spec's scenario: joining priorities 0, 0, 5 in that
order yields the order [3rd, 1st, 2nd] with positions 1, 2, 3. -/
theorem add_to_queue_priority_insertion_witness :
    QueueOrdered (foldJoins [] scenarioJoins)
    ∧ (addEntryToList [] scenarioA).2 = 1
    ∧ (foldJoins [] scenarioJoins).map QueueEntry.queue_id = ["c", "a", "b"]
    ∧ (foldJoins [] scenarioJoins).map QueueEntry.current_position = [1, 2, 3] := by
  have h := add_to_queue_priority_insertion [] scenarioA List.Pairwise.nil (by simp)
  refine ⟨h.2.2.2.2.2 scenarioJoins ?_, ?_, by decide, by decide⟩
  · simp [scenarioJoins, scenarioA, scenarioB, scenarioC]
  · rw [h.2.1]; rfl

/-- The position invariant on one queue: each remaining entry's
`current_position` is its 1-based index. -/
def PosInvQ (q : List QueueEntry) : Prop :=
  ∀ i e, q[i]? = some e → e.current_position = i + 1

/-- The position invariant on every queue of the manager. -/
def PosInv (m : QueueManager) : Prop :=
  ∀ qt, PosInvQ (m.current_queues qt)

lemma posInvQ_updatePositions (q : List QueueEntry) :
    PosInvQ (updatePositions q) := by
  intro i e h
  rw [updatePositions, getElem_updatePositionsFrom] at h
  cases hq : q[i]? with
  | none => rw [hq] at h; simp at h
  | some x =>
    rw [hq] at h
    simp only [Option.map_some', Option.some.injEq] at h
    rw [← h]
    simp

lemma posInv_updateQueue (m : QueueManager) (qt : QueueType)
    (q : List QueueEntry) (h : PosInv m) (hq : PosInvQ q) :
    PosInv (updateQueue m qt q) := by
  intro qt2
  show PosInvQ (if qt2 = qt then q else m.current_queues qt2)
  by_cases hqt : qt2 = qt
  · rw [if_pos hqt]; exact hq
  · rw [if_neg hqt]; exact h qt2

lemma posInv_add (m : QueueManager) (entry : QueueEntry) (h : PosInv m) :
    PosInv (m.add_to_queue entry).1 := by
  exact posInv_updateQueue m entry.queue_type _ h (posInvQ_updatePositions _)

lemma posInv_removeAux (m : QueueManager) (qid : String) (h : PosInv m) :
    ∀ l : List QueueType, PosInv (removeAux m qid l).1 := by
  intro l
  induction l with
  | nil => exact h
  | cons qt rest ih =>
    cases hf : findRemove (m.current_queues qt) qid with
    | none => simpa [removeAux, hf] using ih
    | some pr =>
      simp only [removeAux, hf]
      exact posInv_updateQueue m qt _ h (posInvQ_updatePositions _)

lemma posInv_remove (m : QueueManager) (qid : String) (h : PosInv m) :
    PosInv (m.remove_from_queue qid).1 :=
  posInv_removeAux m qid h queueTypes

lemma complete_service_queues (m : QueueManager) (qid : String)
    (table_number : Option Nat) (now : Nat) :
    (m.complete_service qid table_number now).1.current_queues =
      (m.remove_from_queue qid).1.current_queues := by
  unfold QueueManager.complete_service
  cases h2 : (m.remove_from_queue qid).2 with
  | none => simp [h2]
  | some e =>
    cases table_number with
    | none => simp [h2]
    | some t =>
      simp only [h2]
      split
      · rfl
      · rfl

lemma posInv_complete (m : QueueManager) (qid : String)
    (table_number : Option Nat) (now : Nat) (h : PosInv m) :
    PosInv (m.complete_service qid table_number now).1 := by
  intro qt
  rw [complete_service_queues]
  exact posInv_remove m qid h qt

/-- C2: after every `add_to_queue` and every `remove_from_queue` (including
removal through `complete_service`, with or without a table number), every
remaining entry's `current_position` equals its 1-based index in its queue's
sequence. -/
theorem positions_match_index
    (m : QueueManager) (entry : QueueEntry) (qid : String)
    (table_number : Option Nat) (now : Nat) (h : PosInv m) :
    PosInv (m.add_to_queue entry).1
    ∧ PosInv (m.remove_from_queue qid).1
    ∧ PosInv (m.complete_service qid table_number now).1
    ∧ PosInv (service_complete_service m qid now).1 :=
  ⟨posInv_add m entry h, posInv_remove m qid h,
    posInv_complete m qid table_number now h,
    posInv_complete m qid none now h⟩

/-- Witness for C2 on an initial manager joined by one entry. -/
theorem positions_match_index_witness :
    PosInv ((initialManager 20).add_to_queue scenarioA).1
    ∧ (((initialManager 20).add_to_queue scenarioA).1.current_queues
        QueueType.walk_in).map QueueEntry.current_position = [1] := by
  have h0 : PosInv (initialManager 20) := by
    intro qt i e h
    simp [initialManager] at h
  exact ⟨(positions_match_index (initialManager 20) scenarioA "x" none 0 h0).1,
    by decide⟩

/-- C3: `_is_time_slot_available` returns true exactly when the half-open
interval `[start, start+duration)` misses every non-cancelled appointment
(overlap test `start < other_end AND end > other_start`) and the start hour
lies in business hours `[8, 20)`. -/
theorem is_time_slot_available_iff (appts : List Appointment) (s d : Nat) :
    is_time_slot_available appts s d = true ↔
      ((∀ apt ∈ appts, apt.status ≠ "cancelled" →
          ¬(s < apt.scheduled_time + apt.duration_minutes
            ∧ s + d > apt.scheduled_time))
        ∧ 8 ≤ hourOf s ∧ hourOf s < 20) := by
  unfold is_time_slot_available slotOverlapFree
  simp only [Bool.and_eq_true, List.all_eq_true, Bool.or_eq_true,
    Bool.not_eq_true', Bool.or_eq_false_iff, decide_eq_false_iff_not,
    beq_iff_eq, Bool.and_eq_false_iff, decide_eq_true_eq, not_lt, not_le]
  constructor
  · rintro ⟨hfree, hlo, hhi⟩
    refine ⟨?_, hlo, hhi⟩
    intro apt hmem hnc hov
    rcases hfree apt hmem with hc | hf
    · exact hnc hc
    · rcases hf with h1 | h2
      · omega
      · omega
  · rintro ⟨hfree, hlo, hhi⟩
    refine ⟨?_, hlo, hhi⟩
    intro apt hmem
    by_cases hc : apt.status = "cancelled"
    · exact Or.inl hc
    · have := hfree apt hmem hc
      right
      by_cases h1 : s < apt.scheduled_time + apt.duration_minutes
      · right; omega
      · left; omega

/-- C4: `schedule_appointment` fails (raises) exactly when the slot is
unavailable, leaving the appointment list untouched on failure; on success it
appends a confirmed appointment. -/
theorem schedule_appointment_spec (appts : List Appointment) (atype : String)
    (stime dur : Nat) :
    ((schedule_appointment appts atype stime dur).1 = none ↔
      is_time_slot_available appts stime dur = false)
    ∧ ((schedule_appointment appts atype stime dur).1 = none →
        (schedule_appointment appts atype stime dur).2 = appts)
    ∧ (is_time_slot_available appts stime dur = true →
        ∃ apt, (schedule_appointment appts atype stime dur).1 = some apt
          ∧ apt.status = "confirmed"
          ∧ (schedule_appointment appts atype stime dur).2 = appts ++ [apt]) := by
  unfold schedule_appointment
  by_cases h : is_time_slot_available appts stime dur = true
  · simp [h]
  · simp [h]

/-- Witness for C4: the spec scenario — booking 9:00 for 60 minutes succeeds
and appends, then 9:30 for 30 minutes fails with the list unchanged. -/
theorem schedule_appointment_spec_witness :
    (schedule_appointment [] "coffee_meeting" 540 60).2 =
      [{ appointment_type := "coffee_meeting", scheduled_time := 540,
         duration_minutes := 60, status := "confirmed" }]
    ∧ (schedule_appointment
        (schedule_appointment [] "coffee_meeting" 540 60).2
        "coffee_meeting" 570 30).1 = none
    ∧ (schedule_appointment
        (schedule_appointment [] "coffee_meeting" 540 60).2
        "coffee_meeting" 570 30).2 =
      (schedule_appointment [] "coffee_meeting" 540 60).2 := by
  have hs := (schedule_appointment_spec [] "coffee_meeting" 540 60).2.2 (by decide)
  rcases hs with ⟨apt, h1, _h2, h3⟩
  have h4 : (schedule_appointment [] "coffee_meeting" 540 60).1 =
      some { appointment_type := "coffee_meeting", scheduled_time := 540,
             duration_minutes := 60, status := "confirmed" } := by decide
  rw [h1] at h4
  injection h4 with h5
  have hfail := (schedule_appointment_spec
    (schedule_appointment [] "coffee_meeting" 540 60).2
    "coffee_meeting" 570 30).2.1 (by decide)
  refine ⟨?_, by decide, hfail⟩
  rw [h3, h5]
  rfl

/-- C8 as stated fails: 19:45 (minute 1185 of day 0) is a 15-minute-step
start time inside [8:00, 20:00) that passes `is_time_slot_available` for a
60-minute duration, yet `get_available_slots` omits it because the loop stops
once `start + duration` would pass 20:00. -/
theorem get_available_slots_not_exhaustive :
    is_time_slot_available [] 1185 60 = true
    ∧ 480 ≤ 1185 ∧ 1185 < 1200 ∧ (1185 - 480) % 15 = 0
    ∧ 1185 ∉ get_available_slots [] 0 60 := by decide

/-- C8 amended: `get_available_slots` returns exactly the 15-minute-step start
times from 8:00 whose whole interval fits before 20:00 and which pass
`is_time_slot_available`. -/
theorem get_available_slots_mem (appts : List Appointment) (day dur s : Nat) :
    s ∈ get_available_slots appts day dur ↔
      ((∃ k, s = day * 1440 + 8 * 60 + 15 * k)
        ∧ s + dur ≤ day * 1440 + 20 * 60
        ∧ is_time_slot_available appts s dur = true) := by
  unfold get_available_slots
  simp only [List.mem_filter, List.mem_map, List.mem_range]
  constructor
  · rintro ⟨⟨k, hk, hs⟩, hcond⟩
    rw [Bool.and_eq_true, decide_eq_true_eq] at hcond
    exact ⟨⟨k, hs.symm⟩, hcond.1, hcond.2⟩
  · rintro ⟨⟨k, hs⟩, hle, hav⟩
    refine ⟨⟨k, ?_, hs.symm⟩, ?_⟩
    · omega
    · rw [Bool.and_eq_true, decide_eq_true_eq]
      exact ⟨hle, hav⟩

/-- The manager state for C9: a dine-in customer q1 queued and assigned
table 1 out of a two-table pool. -/
def c9Manager : QueueManager :=
  (((initialManager 2).add_to_queue
      { queue_id := "q1", queue_type := QueueType.dine_in }).1.assign_table
    "q1").1

/-- C9 fails on the code: the service-level `complete_service(queue_id)`
calls the manager without a table number, so the completed customer's table
stays occupied and never returns to the pool; the manager-level operation
would release it only when handed the table number explicitly. -/
theorem service_complete_service_keeps_table :
    c9Manager.occupied_tables = [(1, "q1")]
    ∧ c9Manager.available_tables = [2]
    ∧ (service_complete_service c9Manager "q1" 30).2 ≠ none
    ∧ (service_complete_service c9Manager "q1" 30).1.occupied_tables = [(1, "q1")]
    ∧ (service_complete_service c9Manager "q1" 30).1.available_tables = [2]
    ∧ (c9Manager.complete_service "q1" (some 1) 30).1.occupied_tables = []
    ∧ (c9Manager.complete_service "q1" (some 1) 30).1.available_tables = [2, 1] := by
  decide

lemma getElem_setTableFirst (qid : String) (t : Nat) :
    ∀ (q : List QueueEntry) (i : Nat) (e : QueueEntry),
      q[i]? = some e → e.queue_id ≠ qid →
      (setTableFirst q qid t)[i]? = some e := by
  intro q
  induction q with
  | nil => intro i e h _; simp at h
  | cons x rest ih =>
    intro i e h hne
    cases i with
    | zero =>
      simp only [List.getElem?_cons_zero, Option.some.injEq] at h
      subst h
      unfold setTableFirst
      rw [if_neg hne]
      simp
    | succ i =>
      simp only [List.getElem?_cons_succ] at h
      unfold setTableFirst
      by_cases hx : x.queue_id = qid
      · rw [if_pos hx]
        simpa using h
      · rw [if_neg hx]
        simpa using ih i e h hne

/-- C10: with a non-empty pool, `assign_table` pops the first table and
records it occupied against the given `queue_id` whether or not any queue
entry matches; entries whose `queue_id` differs are untouched. -/
theorem assign_table_pops_first
    (m : QueueManager) (qid : String) (t : Nat) (rest : List Nat)
    (h : m.available_tables = t :: rest) :
    (m.assign_table qid).2 = some t
    ∧ (m.assign_table qid).1.available_tables = rest
    ∧ (t ∉ m.occupied_tables.map Prod.fst →
        (m.assign_table qid).1.occupied_tables = m.occupied_tables ++ [(t, qid)])
    ∧ (∀ (qt : QueueType) (i : Nat) (e : QueueEntry),
        (m.current_queues qt)[i]? = some e → e.queue_id ≠ qid →
        ((m.assign_table qid).1.current_queues qt)[i]? = some e) := by
  unfold QueueManager.assign_table
  rw [h]
  refine ⟨rfl, rfl, ?_, ?_⟩
  · intro hnin
    show dictInsert m.occupied_tables t qid = m.occupied_tables ++ [(t, qid)]
    unfold dictInsert
    rw [if_neg hnin]
  · intro qt i e hi hne
    exact getElem_setTableFirst qid t _ i e hi hne

/-- Witness for C10: assigning to an id that matches no entry at all still
pops table 1 and records it. -/
theorem assign_table_pops_first_witness :
    ((initialManager 2).assign_table "ghost").2 = some 1
    ∧ ((initialManager 2).assign_table "ghost").1.available_tables = [2]
    ∧ ((initialManager 2).assign_table "ghost").1.occupied_tables =
        [(1, "ghost")] := by
  have h := assign_table_pops_first (initialManager 2) "ghost" 1 [2] (by rfl)
  exact ⟨h.1, h.2.1, h.2.2.1 (by decide)⟩

/-- Two appointments' half-open intervals intersect. -/
def apptOverlap (a b : Appointment) : Prop :=
  a.scheduled_time < b.scheduled_time + b.duration_minutes
  ∧ b.scheduled_time < a.scheduled_time + a.duration_minutes

/-- One step of the service on the appointment list: a `schedule_appointment`
call (succeeding or failing) or a `process_appointment_reminders` poll.  No
other operation of the service touches the appointment list. -/
inductive ApptStep : List Appointment → List Appointment → Prop
  | sched (l : List Appointment) (atype : String) (stime dur : Nat) :
      ApptStep l (schedule_appointment l atype stime dur).2
  | remind (l : List Appointment) (now : Nat) :
      ApptStep l (process_appointment_reminders l now)

/-- Appointment lists reachable from the initial empty list. -/
inductive ApptReachable : List Appointment → Prop
  | init : ApptReachable []
  | step {l l2 : List Appointment} :
      ApptReachable l → ApptStep l l2 → ApptReachable l2

/-- The carried invariant: non-cancelled appointments never overlap. -/
def NoConfOverlap (l : List Appointment) : Prop :=
  List.Pairwise
    (fun a b => a.status ≠ "cancelled" → b.status ≠ "cancelled" →
      ¬apptOverlap a b) l

lemma remind24_fields (now : Nat) (a : Appointment) :
    (remind24 now a).status = a.status
    ∧ (remind24 now a).scheduled_time = a.scheduled_time
    ∧ (remind24 now a).duration_minutes = a.duration_minutes := by
  unfold remind24
  split <;> exact ⟨rfl, rfl, rfl⟩

lemma remind1_fields (now : Nat) (a : Appointment) :
    (remind1 now a).status = a.status
    ∧ (remind1 now a).scheduled_time = a.scheduled_time
    ∧ (remind1 now a).duration_minutes = a.duration_minutes := by
  unfold remind1
  split <;> exact ⟨rfl, rfl, rfl⟩

lemma remindStep_fields (now : Nat) (a : Appointment) :
    (remindStep now a).status = a.status
    ∧ (remindStep now a).scheduled_time = a.scheduled_time
    ∧ (remindStep now a).duration_minutes = a.duration_minutes := by
  unfold remindStep
  split
  · exact ⟨rfl, rfl, rfl⟩
  · obtain ⟨h1, h2, h3⟩ := remind1_fields now (remind24 now a)
    obtain ⟨g1, g2, g3⟩ := remind24_fields now a
    exact ⟨h1.trans g1, h2.trans g2, h3.trans g3⟩

lemma noConfOverlap_sched (l : List Appointment) (atype : String)
    (stime dur : Nat) (h : NoConfOverlap l) :
    NoConfOverlap (schedule_appointment l atype stime dur).2 := by
  unfold schedule_appointment
  by_cases hav : is_time_slot_available l stime dur = true
  · rw [if_pos hav]
    apply List.pairwise_append.mpr
    refine ⟨h, List.pairwise_singleton _ _, ?_⟩
    intro a ha b hb
    rw [List.mem_singleton] at hb
    subst hb
    intro hca _ hov
    have hfree : slotOverlapFree l stime (stime + dur) = true := by
      unfold is_time_slot_available at hav
      exact (Bool.and_eq_true _ _ |>.mp hav).1
    rw [slotOverlapFree, List.all_eq_true] at hfree
    have := hfree a ha
    simp only [Bool.or_eq_true, beq_iff_eq, Bool.not_eq_true',
      Bool.and_eq_false_iff, decide_eq_false_iff_not, not_lt] at this
    rcases this with hc | hf
    · exact hca hc
    · rcases hov with ⟨h1, h2⟩
      simp only [Appointment.scheduled_time, Appointment.duration_minutes] at h1 h2
      rcases hf with h3 | h4
      · omega
      · omega
  · rw [if_neg hav]
    exact h

lemma noConfOverlap_remind (l : List Appointment) (now : Nat)
    (h : NoConfOverlap l) :
    NoConfOverlap (process_appointment_reminders l now) := by
  unfold process_appointment_reminders NoConfOverlap
  refine List.Pairwise.map _ ?_ h
  intro a b hab
  obtain ⟨hsa, hta, hda⟩ := remindStep_fields now a
  obtain ⟨hsb, htb, hdb⟩ := remindStep_fields now b
  rw [hsa, hsb]
  intro h1 h2 hov
  apply hab h1 h2
  unfold apptOverlap at hov ⊢
  rw [hta, htb, hda, hdb] at hov
  exact hov

/-- C5: in every appointment list reachable through the service's operations
from the empty initial state, no two appointments whose intervals overlap are
both confirmed. -/
theorem no_two_confirmed_overlapping (l : List Appointment)
    (h : ApptReachable l) :
    List.Pairwise (fun a b => apptOverlap a b →
      ¬(a.status = "confirmed" ∧ b.status = "confirmed")) l := by
  have hinv : NoConfOverlap l := by
    induction h with
    | init => exact List.Pairwise.nil
    | step _ hs ih =>
      cases hs with
      | sched atype stime dur => exact noConfOverlap_sched _ _ _ _ ih
      | remind now => exact noConfOverlap_remind _ _ ih
  refine hinv.imp ?_
  intro a b hab hov hconf
  exact hab (by rw [hconf.1]; decide) (by rw [hconf.2]; decide) hov

/-- Witness for C5: the state after two non-overlapping bookings, followed by
a reminder poll, is reachable and satisfies the property. -/
theorem no_two_confirmed_overlapping_witness :
    List.Pairwise (fun a b => apptOverlap a b →
      ¬(a.status = "confirmed" ∧ b.status = "confirmed"))
      (process_appointment_reminders
        (schedule_appointment
          (schedule_appointment [] "coffee_meeting" 540 60).2
          "study_session" 660 30).2 100) :=
  no_two_confirmed_overlapping _
    (ApptReachable.step
      (ApptReachable.step
        (ApptReachable.step ApptReachable.init
          (ApptStep.sched [] "coffee_meeting" 540 60))
        (ApptStep.sched _ "study_session" 660 30))
      (ApptStep.remind _ 100))

/-- The table-pool invariant for a manager over tables 1..n: the available
pool and the occupied keys are duplicate-free, disjoint, and together exactly
{1..n}. -/
def TableInv (n : Nat) (m : QueueManager) : Prop :=
  m.available_tables.Nodup
  ∧ (m.occupied_tables.map Prod.fst).Nodup
  ∧ (∀ t, ¬(t ∈ m.available_tables ∧ t ∈ m.occupied_tables.map Prod.fst))
  ∧ (∀ t, (t ∈ m.available_tables ∨ t ∈ m.occupied_tables.map Prod.fst) ↔
      1 ≤ t ∧ t ≤ n)

lemma tableInv_of_eq (n : Nat) (m m2 : QueueManager)
    (ha : m2.available_tables = m.available_tables)
    (ho : m2.occupied_tables = m.occupied_tables) (h : TableInv n m) :
    TableInv n m2 := by
  unfold TableInv at h ⊢
  rw [ha, ho]
  exact h

lemma tableInv_initial (n : Nat) : TableInv n (initialManager n) := by
  refine ⟨List.nodup_range' _ _, List.nodup_nil, ?_, ?_⟩
  · rintro t ⟨_, h2⟩
    simp [initialManager] at h2
  · intro t
    show t ∈ List.range' 1 n ∨
        t ∈ ([] : List (Nat × String)).map Prod.fst ↔ _
    simp [List.mem_range'_1]
    omega

lemma removeAux_tables (m : QueueManager) (qid : String) :
    ∀ l : List QueueType,
      (removeAux m qid l).1.available_tables = m.available_tables
      ∧ (removeAux m qid l).1.occupied_tables = m.occupied_tables := by
  intro l
  induction l with
  | nil => exact ⟨rfl, rfl⟩
  | cons qt rest ih =>
    cases hf : findRemove (m.current_queues qt) qid with
    | none => simpa [removeAux, hf] using ih
    | some pr =>
      obtain ⟨e, q2⟩ := pr
      simp [removeAux, hf, updateQueue]

lemma call_next_tables (m : QueueManager) (qt : QueueType) (now : Nat) :
    (m.call_next_customer qt now).1.available_tables = m.available_tables
    ∧ (m.call_next_customer qt now).1.occupied_tables = m.occupied_tables := by
  unfold QueueManager.call_next_customer
  cases hq : m.current_queues qt with
  | nil => exact ⟨rfl, rfl⟩
  | cons e rest => exact ⟨rfl, rfl⟩

lemma filtered_keys_mem (K : List (Nat × String)) (t : Nat) :
    ∀ x, x ∈ (K.filter (fun p => p.1 ≠ t)).map Prod.fst ↔
      (x ∈ K.map Prod.fst ∧ x ≠ t) := by
  intro x
  simp only [List.mem_map, List.mem_filter, decide_eq_true_eq]
  constructor
  · rintro ⟨p, ⟨hpK, hpne⟩, hpx⟩
    exact ⟨⟨p, hpK, hpx⟩, hpx ▸ hpne⟩
  · rintro ⟨⟨p, hpK, hpx⟩, hne⟩
    exact ⟨p, ⟨hpK, hpx ▸ hne⟩, hpx⟩

lemma tableInv_assign (n : Nat) (m : QueueManager) (qid : String)
    (h : TableInv n m) : TableInv n (m.assign_table qid).1 := by
  obtain ⟨hA, hK, hdisj, huniv⟩ := h
  unfold QueueManager.assign_table
  cases hAv : m.available_tables with
  | nil => exact ⟨hA, hK, hdisj, huniv⟩
  | cons t rest =>
    have htK : t ∉ m.occupied_tables.map Prod.fst := fun hmem =>
      hdisj t ⟨by rw [hAv]; exact List.mem_cons_self _ _, hmem⟩
    have hdict : dictInsert m.occupied_tables t qid =
        m.occupied_tables ++ [(t, qid)] := by
      unfold dictInsert
      rw [if_neg htK]
    have hA2 : (t :: rest).Nodup := hAv ▸ hA
    have htrest : t ∉ rest := (List.nodup_cons.mp hA2).1
    have hkeys2 : (dictInsert m.occupied_tables t qid).map Prod.fst =
        m.occupied_tables.map Prod.fst ++ [t] := by
      rw [hdict, List.map_append]
      rfl
    refine ⟨(List.nodup_cons.mp hA2).2, ?_, ?_, ?_⟩
    · show ((dictInsert m.occupied_tables t qid).map Prod.fst).Nodup
      rw [hkeys2]
      refine List.nodup_append.mpr ⟨hK, List.nodup_singleton t, ?_⟩
      intro x hx hx2
      rw [List.mem_singleton] at hx2
      exact htK (hx2 ▸ hx)
    · intro x
      show ¬(x ∈ rest ∧ x ∈ (dictInsert m.occupied_tables t qid).map Prod.fst)
      rintro ⟨hx1, hx2⟩
      rw [hkeys2] at hx2
      rcases List.mem_append.mp hx2 with hxK | hxt
      · exact hdisj x ⟨by rw [hAv]; exact List.mem_cons_of_mem _ hx1, hxK⟩
      · rw [List.mem_singleton] at hxt
        exact htrest (hxt ▸ hx1)
    · intro x
      show x ∈ rest ∨ x ∈ (dictInsert m.occupied_tables t qid).map Prod.fst ↔
        1 ≤ x ∧ x ≤ n
      rw [hkeys2]
      constructor
      · rintro (hx | hx)
        · exact (huniv x).mp
            (Or.inl (by rw [hAv]; exact List.mem_cons_of_mem _ hx))
        · rcases List.mem_append.mp hx with hxK | hxt
          · exact (huniv x).mp (Or.inr hxK)
          · rw [List.mem_singleton] at hxt
            subst hxt
            exact (huniv x).mp
              (Or.inl (by rw [hAv]; exact List.mem_cons_self _ _))
      · intro hxn
        rcases (huniv x).mpr hxn with hxA | hxK
        · rw [hAv] at hxA
          rcases List.mem_cons.mp hxA with hxt | hxr
          · subst hxt
            exact Or.inr (List.mem_append_right _ (List.mem_singleton.mpr rfl))
          · exact Or.inl hxr
        · exact Or.inr (List.mem_append_left _ hxK)

lemma tableInv_release (n : Nat) (r : QueueManager) (t : Nat)
    (h : TableInv n r) (htK : t ∈ r.occupied_tables.map Prod.fst) :
    (r.available_tables ++ [t]).Nodup
    ∧ ((r.occupied_tables.filter (fun p => p.1 ≠ t)).map Prod.fst).Nodup
    ∧ (∀ x, ¬(x ∈ r.available_tables ++ [t]
        ∧ x ∈ (r.occupied_tables.filter (fun p => p.1 ≠ t)).map Prod.fst))
    ∧ (∀ x, (x ∈ r.available_tables ++ [t]
        ∨ x ∈ (r.occupied_tables.filter (fun p => p.1 ≠ t)).map Prod.fst) ↔
        1 ≤ x ∧ x ≤ n) := by
  obtain ⟨hA, hK, hdisj, huniv⟩ := h
  have hsub : List.Sublist
      ((r.occupied_tables.filter (fun p => p.1 ≠ t)).map Prod.fst)
      (r.occupied_tables.map Prod.fst) :=
    List.Sublist.map Prod.fst (List.filter_sublist _)
  refine ⟨?_, List.Nodup.sublist hsub hK, ?_, ?_⟩
  · refine List.nodup_append.mpr ⟨hA, List.nodup_singleton t, ?_⟩
    intro x hx hx2
    rw [List.mem_singleton] at hx2
    exact hdisj t ⟨hx2 ▸ hx, htK⟩
  · rintro x ⟨hx1, hx2⟩
    rw [filtered_keys_mem] at hx2
    rcases List.mem_append.mp hx1 with hxA | hxt
    · exact hdisj x ⟨hxA, hx2.1⟩
    · rw [List.mem_singleton] at hxt
      exact hx2.2 hxt
  · intro x
    rw [filtered_keys_mem]
    constructor
    · rintro (hx | hx)
      · rcases List.mem_append.mp hx with hxA | hxt
        · exact (huniv x).mp (Or.inl hxA)
        · rw [List.mem_singleton] at hxt
          subst hxt
          exact (huniv x).mp (Or.inr htK)
      · exact (huniv x).mp (Or.inr hx.1)
    · intro hxn
      rcases (huniv x).mpr hxn with hxA | hxK
      · exact Or.inl (List.mem_append_left _ hxA)
      · by_cases hxt : x = t
        · subst hxt
          exact Or.inl (List.mem_append_right _ (List.mem_singleton.mpr rfl))
        · exact Or.inr ⟨hxK, hxt⟩

lemma tableInv_complete (n : Nat) (m : QueueManager) (qid : String)
    (tbl : Option Nat) (now : Nat) (h : TableInv n m) :
    TableInv n (m.complete_service qid tbl now).1 := by
  have hrem := removeAux_tables m qid queueTypes
  have hminv : TableInv n (m.remove_from_queue qid).1 :=
    tableInv_of_eq n m _ hrem.1 hrem.2 h
  unfold QueueManager.complete_service
  cases h2 : (m.remove_from_queue qid).2 with
  | none =>
    simp only [h2]
    exact hminv
  | some e =>
    cases tbl with
    | none =>
      simp only [h2]
      exact hminv
    | some t =>
      simp only [h2]
      by_cases hc : t ≠ 0 ∧
          t ∈ ((m.remove_from_queue qid).1.occupied_tables.map Prod.fst)
      · rw [if_pos hc]
        obtain ⟨g1, g2, g3, g4⟩ := tableInv_release n _ t hminv hc.2
        exact ⟨g1, g2, g3, g4⟩
      · rw [if_neg hc]
        exact hminv

/-- C6: from a manager initialized with tables 1..n, every operation keeps
each table number in exactly one of the available pool and the occupied map,
whose keys stay duplicate-free, disjoint from the pool, and jointly {1..n}. -/
theorem table_exactly_one_membership
    (n : Nat) (m : QueueManager) (qid : String) (entry : QueueEntry)
    (qt : QueueType) (tbl : Option Nat) (now : Nat)
    (h : TableInv n m) :
    TableInv n (initialManager n)
    ∧ TableInv n (m.assign_table qid).1
    ∧ TableInv n (m.complete_service qid tbl now).1
    ∧ TableInv n (m.add_to_queue entry).1
    ∧ TableInv n (m.remove_from_queue qid).1
    ∧ TableInv n (m.call_next_customer qt now).1 :=
  ⟨tableInv_initial n,
    tableInv_assign n m qid h,
    tableInv_complete n m qid tbl now h,
    tableInv_of_eq n m _ rfl rfl h,
    tableInv_of_eq n m _ (removeAux_tables m qid queueTypes).1
      (removeAux_tables m qid queueTypes).2 h,
    tableInv_of_eq n m _ (call_next_tables m qt now).1
      (call_next_tables m qt now).2 h⟩

/-- Witness for C6: after one assignment out of a two-table pool the
invariant still holds, with table 1 occupied and table 2 available. -/
theorem table_exactly_one_membership_witness :
    TableInv 2 ((initialManager 2).assign_table "g").1
    ∧ ((initialManager 2).assign_table "g").1.available_tables = [2]
    ∧ ((initialManager 2).assign_table "g").1.occupied_tables.map Prod.fst
        = [1] := by
  refine ⟨(table_exactly_one_membership 2 (initialManager 2) "g"
    { queue_id := "w" } QueueType.walk_in none 0 (tableInv_initial 2)).2.1,
    by decide, by decide⟩

/-- C7: on a non-empty queue, `call_next_customer` marks the front entry
called and stamps `called_at`, removes nothing, reorders nothing, touches no
other entry, queue, appointment or table, and a repeated call with no
intervening removal returns the same front entry again; on an empty queue it
returns none and changes nothing. -/
theorem call_next_customer_frame
    (m : QueueManager) (qt : QueueType) (e : QueueEntry)
    (rest : List QueueEntry) (t1 t2 : Nat) :
    (m.current_queues qt = [] → m.call_next_customer qt t1 = (m, none))
    ∧ (m.current_queues qt = e :: rest →
        (m.call_next_customer qt t1).2 =
          some { e with status := QueueStatus.called, called_at := some t1 }
        ∧ (m.call_next_customer qt t1).1.current_queues qt =
            { e with status := QueueStatus.called, called_at := some t1 } :: rest
        ∧ (∀ qt2, qt2 ≠ qt →
            (m.call_next_customer qt t1).1.current_queues qt2 =
              m.current_queues qt2)
        ∧ (m.call_next_customer qt t1).1.appointments = m.appointments
        ∧ (m.call_next_customer qt t1).1.available_tables = m.available_tables
        ∧ (m.call_next_customer qt t1).1.occupied_tables = m.occupied_tables
        ∧ ((m.call_next_customer qt t1).1.call_next_customer qt t2).2 =
            some { e with status := QueueStatus.called,
                          called_at := some t2 }) := by
  constructor
  · intro h
    unfold QueueManager.call_next_customer
    rw [h]
  · intro h
    have h1 : m.call_next_customer qt t1 =
        (updateQueue m qt
          ({ e with status := QueueStatus.called, called_at := some t1 } :: rest),
          some { e with status := QueueStatus.called, called_at := some t1 }) := by
      unfold QueueManager.call_next_customer
      rw [h]
    have hq2 : (updateQueue m qt
        ({ e with status := QueueStatus.called, called_at := some t1 } :: rest)).current_queues
          qt =
        { e with status := QueueStatus.called, called_at := some t1 } :: rest := by
      show (if qt = qt then _ else _) = _
      rw [if_pos rfl]
    rw [h1]
    refine ⟨rfl, hq2, ?_, rfl, rfl, rfl, ?_⟩
    · intro qt2 hne
      show (if qt2 = qt then _ else _) = _
      rw [if_neg hne]
    · unfold QueueManager.call_next_customer
      rw [hq2]

/-- The manager for the C7 witness: one walk-in customer queued. -/
def calledManager : QueueManager :=
  ((initialManager 2).add_to_queue scenarioA).1

/-- The queued form of `scenarioA`, and its called form stamped at `t`. -/
def scenarioAQueued : QueueEntry :=
  { scenarioA with original_position := 1, current_position := 1 }

def scenarioACalled (t : Nat) : QueueEntry :=
  { scenarioAQueued with status := QueueStatus.called, called_at := some t }

/-- Witness for C7: calling twice returns the same front entry, restamped. -/
theorem call_next_customer_frame_witness :
    (calledManager.call_next_customer QueueType.walk_in 7).2 =
      some (scenarioACalled 7)
    ∧ ((calledManager.call_next_customer QueueType.walk_in 7).1.call_next_customer
        QueueType.walk_in 9).2 = some (scenarioACalled 9) := by
  have h := (call_next_customer_frame calledManager QueueType.walk_in
    scenarioAQueued [] 7 9).2 (by decide)
  exact ⟨h.1, h.2.2.2.2.2.2⟩

end CoffeQueue
